import Mathlib

set_option maxRecDepth 40000

/-!
Verification of the iam0-core cryptography modules.

This file shallowly embeds the crypto core of the repository
(src/crypto/csprng.rs, src/crypto/elliptic_curve.rs, src/crypto/schnorr.rs,
src/crypto/token.rs) and proves, corrects or refutes the specification
claims about it.

Conventions of the embedding:
- machine words are `Nat` values kept below an explicit power of two
  (`% 2^32`, `% 2^64` at the points the Rust code wraps);
- byte strings are `List Nat` (each entry a byte value);
- fallible or panicking code is embedded in `Option`/`Except`: `none`
  models a Rust panic (`unwrap`/`expect`/slice-out-of-range/BigUint
  underflow), `Except.error` models a returned `Err` value;
- mutable state (the ChaCha generator) is passed explicitly;
- loops whose termination is not structural carry an explicit fuel
  argument so that every definition is executable and kernel-reducible.
-/

namespace Iam0

/-! ## Byte and word utilities -/

/-- Big-endian interpretation of a byte string as a natural number. -/
def beNat (l : List Nat) : Nat :=
  l.foldl (fun acc b => acc * 256 + b) 0

/-- Little-endian interpretation of a byte string as a natural number,
as `BigUint::from_bytes_le` does. -/
def leNat (l : List Nat) : Nat :=
  l.foldr (fun b acc => acc * 256 + b) 0

/-- The `k` little-endian bytes of `n` (as `u32::to_le_bytes` and friends). -/
def leBytes : Nat → Nat → List Nat
  | 0, _ => []
  | k + 1, n => n % 256 :: leBytes k (n / 256)

/-- The `k` big-endian bytes of `n`. -/
def beBytes (k n : Nat) : List Nat :=
  (leBytes k n).reverse

/-- Split a list into chunks of `k` elements (the last chunk may be
shorter), as `slice::chunks`.  The first argument is fuel; it is
instantiated with the length of the list. -/
def chunksGo (k : Nat) : Nat → List Nat → List (List Nat)
  | 0, _ => []
  | _, [] => []
  | fuel + 1, l => l.take k :: chunksGo k fuel (l.drop k)

/-- `slice::chunks k` on byte strings. -/
def chunks (k : Nat) (l : List Nat) : List (List Nat) :=
  chunksGo k l.length l

/-- Number of bits of a `BigUint` (`BigUint::bits`): 0 for 0, otherwise
`floor(log2 n) + 1`.  Implemented with structural fuel so that it
kernel-reduces. -/
def bitsGo : Nat → Nat → Nat
  | 0, _ => 0
  | fuel + 1, m => if m = 0 then 0 else bitsGo fuel (m / 2) + 1

/-- `BigUint::bits`. -/
def bits (m : Nat) : Nat := bitsGo m m

/-! ## SHA-512 (the `sha2::Sha512` dependency of `challenge`)

Modelled from the FIPS 180-4 standard that the `sha2` crate implements;
all word arithmetic is over `Nat` reduced `% 2^64`. -/

def w64 : Nat := 2 ^ 64

/-- Right rotation of a 64-bit word. -/
def rotr64 (x n : Nat) : Nat :=
  ((x % w64) >>> n ||| (x <<< (64 - n))) % w64

def bSigma0 (x : Nat) : Nat := rotr64 x 28 ^^^ rotr64 x 34 ^^^ rotr64 x 39
def bSigma1 (x : Nat) : Nat := rotr64 x 14 ^^^ rotr64 x 18 ^^^ rotr64 x 41
def sSigma0 (x : Nat) : Nat := rotr64 x 1 ^^^ rotr64 x 8 ^^^ (x >>> 7)
def sSigma1 (x : Nat) : Nat := rotr64 x 19 ^^^ rotr64 x 61 ^^^ (x >>> 6)
def chFn (x y z : Nat) : Nat := (x &&& y) ^^^ ((x ^^^ (w64 - 1)) &&& z)
def majFn (x y z : Nat) : Nat := (x &&& y) ^^^ (x &&& z) ^^^ (y &&& z)

def sha512K : List Nat :=
  [4794697086780616226, 8158064640168781261, 13096744586834688815,
   16840607885511220156, 4131703408338449720, 6480981068601479193,
   10538285296894168987, 12329834152419229976, 15566598209576043074,
   1334009975649890238, 2608012711638119052, 6128411473006802146,
   8268148722764581231, 9286055187155687089, 11230858885718282805,
   13951009754708518548, 16472876342353939154, 17275323862435702243,
   1135362057144423861, 2597628984639134821, 3308224258029322869,
   5365058923640841347, 6679025012923562964, 8573033837759648693,
   10970295158949994411, 12119686244451234320, 12683024718118986047,
   13788192230050041572, 14330467153632333762, 15395433587784984357,
   489312712824947311, 1452737877330783856, 2861767655752347644,
   3322285676063803686, 5560940570517711597, 5996557281743188959,
   7280758554555802590, 8532644243296465576, 9350256976987008742,
   10552545826968843579, 11727347734174303076, 12113106623233404929,
   14000437183269869457, 14369950271660146224, 15101387698204529176,
   15463397548674623760, 17586052441742319658, 1182934255886127544,
   1847814050463011016, 2177327727835720531, 2830643537854262169,
   3796741975233480872, 4115178125766777443, 5681478168544905931,
   6601373596472566643, 7507060721942968483, 8399075790359081724,
   8693463985226723168, 9568029438360202098, 10144078919501101548,
   10430055236837252648, 11840083180663258601, 13761210420658862357,
   14299343276471374635, 14566680578165727644, 15097957966210449927,
   16922976911328602910, 17689382322260857208, 500013540394364858,
   748580250866718886, 1242879168328830382, 1977374033974150939,
   2944078676154940804, 3659926193048069267, 4368137639120453308,
   4836135668995329356, 5532061633213252278, 6448918945643986474,
   6902733635092675308, 7801388544844847127]

def sha512H0 : List Nat :=
  [7640891576956012808, 13503953896175478587, 4354685564936845355,
   11912009170470909681, 5840696475078001361, 11170449401992604703,
   2270897969802886507, 6620516959819538809]

/-- Extend the 16 message words to the 80-entry schedule; `t` counts the
words still to append. -/
def sha512Extend : Nat → List Nat → List Nat
  | 0, w => w
  | t + 1, w =>
    let i := w.length
    let nw := (sSigma1 (w.getD (i - 2) 0) + w.getD (i - 7) 0 +
               sSigma0 (w.getD (i - 15) 0) + w.getD (i - 16) 0) % w64
    sha512Extend t (w ++ [nw])

/-- One compression round over an 8-word state. -/
def sha512Round (st : List Nat) (kt wt : Nat) : List Nat :=
  match st with
  | [a, b, c, d, e, f, g, h] =>
    let t1 := (h + bSigma1 e + chFn e f g + kt + wt) % w64
    let t2 := (bSigma0 a + majFn a b c) % w64
    [(t1 + t2) % w64, a, b, c, (d + t1) % w64, e, f, g]
  | _ => st

def sha512Rounds : List Nat → List Nat → List Nat → List Nat
  | st, k :: ks, wt :: ws => sha512Rounds (sha512Round st k wt) ks ws
  | st, _, _ => st

/-- Compress one 128-byte block into the running hash state. -/
def sha512Compress (st : List Nat) (block : List Nat) : List Nat :=
  let ws := sha512Extend 64 ((chunks 8 block).map beNat)
  let st1 := sha512Rounds st sha512K ws
  (st.zip st1).map (fun p => (p.1 + p.2) % w64)

/-- SHA-512 padding: append `0x80`, zeros, then the 16-byte big-endian
bit length. -/
def sha512Pad (m : List Nat) : List Nat :=
  let l := m.length
  let zeros := (128 + 112 - (l + 1) % 128) % 128
  m ++ 128 :: List.replicate zeros 0 ++ beBytes 16 (l * 8)

/-- SHA-512 of a byte string, producing the 64-byte digest. -/
def sha512 (m : List Nat) : List Nat :=
  let final := (chunks 128 (sha512Pad m)).foldl sha512Compress sha512H0
  (final.map (beBytes 8)).flatten

/-! ## ChaCha CSPRNG (src/crypto/csprng.rs) -/

def w32 : Nat := 2 ^ 32

/-- `u32::rotate_left`. -/
def rotl32 (x n : Nat) : Nat :=
  (((x % w32) <<< n) ||| ((x % w32) >>> (32 - n))) % w32

/-- `chacha_quarter_round` over a 16-word state. -/
def chachaQuarterRound (x : List Nat) (a b c d : Nat) : List Nat :=
  let xa := (x.getD a 0 + x.getD b 0) % w32
  let x := x.set a xa
  let xd := rotl32 (x.getD d 0 ^^^ xa) 16
  let x := x.set d xd
  let xc := (x.getD c 0 + xd) % w32
  let x := x.set c xc
  let xb := rotl32 (x.getD b 0 ^^^ xc) 12
  let x := x.set b xb
  let xa2 := (x.getD a 0 + xb) % w32
  let x := x.set a xa2
  let xd2 := rotl32 (x.getD d 0 ^^^ xa2) 8
  let x := x.set d xd2
  let xc2 := (x.getD c 0 + xd2) % w32
  let x := x.set c xc2
  let xb2 := rotl32 (x.getD b 0 ^^^ xc2) 7
  x.set b xb2

/-- One column round followed by one diagonal round. -/
def chachaDoubleRound (s : List Nat) : List Nat :=
  let s := chachaQuarterRound s 0 4 8 12
  let s := chachaQuarterRound s 1 5 9 13
  let s := chachaQuarterRound s 2 6 10 14
  let s := chachaQuarterRound s 3 7 11 15
  let s := chachaQuarterRound s 0 5 10 15
  let s := chachaQuarterRound s 1 6 11 12
  let s := chachaQuarterRound s 2 7 8 13
  chachaQuarterRound s 3 4 9 14

def chachaDoubleRounds : Nat → List Nat → List Nat
  | 0, s => s
  | t + 1, s => chachaDoubleRounds t (chachaDoubleRound s)

/-- `chacha_block`: produce one 64-byte keystream block. -/
def chachaBlock (key nonce : List Nat) (counter : Nat) : List Nat :=
  let keyWords := (List.range 8).map (fun i => leNat ((key.drop (4 * i)).take 4))
  let nonceWords := (List.range 3).map (fun i => leNat ((nonce.drop (4 * i)).take 4))
  let st := [0x61707865, 0x3320646e, 0x79622d32, 0x6b206574] ++
    keyWords ++ [counter % w32] ++ nonceWords
  let final := chachaDoubleRounds 10 st
  (((final.zip st).map (fun p => (p.1 + p.2) % w32)).map (leBytes 4)).flatten

/-- The state of `ChaChaRng`. -/
structure ChaChaRng where
  key : List Nat
  nonce : List Nat
  counter : Nat
  block : List Nat
  offset : Nat
  deriving Repr, DecidableEq

/-- `ChaChaRng::new`: the two OS entropy reads may fail; the code calls
`.expect(..)` on each, so a failed read panics (modelled `none`) instead
of returning an error value. -/
def ChaChaRng.new (keyEntropy nonceEntropy : Option (List Nat)) : Option ChaChaRng :=
  match keyEntropy with
  | none => none
  | some key =>
    match nonceEntropy with
    | none => none
    | some nonce =>
      some { key := key, nonce := nonce, counter := 0,
             block := List.replicate 64 0, offset := 64 }

/-- `ChaChaRng::refill`. -/
def ChaChaRng.refill (s : ChaChaRng) : ChaChaRng :=
  { s with block := chachaBlock s.key s.nonce s.counter,
           counter := (s.counter + 1) % w32,
           offset := 0 }

/-- `ChaChaRng::next_u8`. -/
def ChaChaRng.nextU8 (s : ChaChaRng) : Nat × ChaChaRng :=
  let t := if s.offset = 64 then s.refill else s
  (t.block.getD t.offset 0, { t with offset := t.offset + 1 })

/-- `n` successive `next_u8` calls. -/
def ChaChaRng.nextN (s : ChaChaRng) : Nat → List Nat × ChaChaRng
  | 0 => ([], s)
  | n + 1 =>
    let p1 := s.nextU8
    let p2 := p1.2.nextN n
    (p1.1 :: p2.1, p2.2)

/-- The body of `ChaChaRng::fill_bytes`: the buffer is traversed in
chunks of at most 64 bytes; a chunk larger than what remains of the
current block takes the tail of the block, refills, and takes the head
of the fresh block.  `fuel` bounds the number of chunks and is
instantiated with the buffer length. -/
def ChaChaRng.fillBytesGo : Nat → ChaChaRng → Nat → List Nat × ChaChaRng
  | 0, s, _ => ([], s)
  | fuel + 1, s, len =>
    if len = 0 then ([], s)
    else
      let c := min 64 len
      let remaining := 64 - s.offset
      if remaining < c then
        let part1 := s.block.drop s.offset
        let s1 := s.refill
        let tk := c - remaining
        let part2 := s1.block.take tk
        let r := fillBytesGo fuel { s1 with offset := tk } (len - c)
        (part1 ++ (part2 ++ r.1), r.2)
      else
        let part := (s.block.drop s.offset).take c
        let r := fillBytesGo fuel { s with offset := s.offset + c } (len - c)
        (part ++ r.1, r.2)

/-- `ChaChaRng::fill_bytes` on a buffer of `len` bytes: returns the
bytes written and the final generator state. -/
def ChaChaRng.fillBytes (s : ChaChaRng) (len : Nat) : List Nat × ChaChaRng :=
  ChaChaRng.fillBytesGo len s len

/-! ## Elliptic curve engine (src/crypto/elliptic_curve.rs)

`BigUint` values are `Nat`.  `BigUint` subtraction panics when the
result would be negative, so every subtraction of the source that can
underflow is guarded and yields `none`.  The theorems below are only
invoked with a nonzero modulus, matching `BigUint`'s panic on `% 0`.
The `_bytes` cache field of `EllipticCurvePoint` is omitted: it is a
function of `x` and `y` fixed by the only two constructors. -/

/-- Fueled extended Euclid, carrying the gcd and the Bezout coefficient
of the first argument. -/
def egcdGo : Nat → Nat → Nat → Int → Int → Nat × Int
  | 0, r0, _, s0, _ => (r0, s0)
  | fuel + 1, r0, r1, s0, s1 =>
    if r1 = 0 then (r0, s0)
    else egcdGo fuel r1 (r0 % r1) s1 (s0 - (r0 / r1 : Nat) * s1)

/-- `mod_inv`: `BigUint::modinv` returns the inverse in `[0, p)` exactly
when `gcd(a, p) = 1`; the source calls `.expect(..)` on it, so a missing
inverse panics (`none`). -/
def mod_inv (a p : Nat) : Option Nat :=
  if Nat.gcd a p = 1 then
    some (((egcdGo (a + p + 1) a p 1 0).2 % (p : Int)).toNat)
  else none

structure EllipticCurvePoint where
  x : Nat
  y : Nat
  infinity : Bool
  deriving Repr, DecidableEq

/-- `EllipticCurvePoint::new`. -/
def EllipticCurvePoint.new (x y : Nat) : EllipticCurvePoint :=
  { x := x, y := y, infinity := false }

/-- `EllipticCurvePoint::infinity`. -/
def infinityPoint : EllipticCurvePoint :=
  { x := 0, y := 0, infinity := true }

structure EllipticCurveParams where
  p : Nat
  a : Nat
  b : Nat
  g : EllipticCurvePoint
  n : Nat

/-- The slope `λ` computed inside `EllipticCurvePoint::add`: tangent
formula when the x-coordinates coincide, secant formula otherwise. -/
def addSlope (self other : EllipticCurvePoint) (params : EllipticCurveParams) :
    Option Nat :=
  if self.x = other.x then
    (mod_inv (2 * self.y) params.p).map
      (fun inv => (3 * self.x * self.x + params.a) * inv % params.p)
  else
    if other.x + params.p < self.x then none
    else if other.y + params.p < self.y then none
    else
      (mod_inv ((other.x + params.p - self.x) % params.p) params.p).map
        (fun inv => (other.y + params.p - self.y) % params.p * inv % params.p)

/-- `EllipticCurvePoint::add`.  `none` models a panic: a failed modular
inverse or an underflowing `BigUint` subtraction. -/
def EllipticCurvePoint.add (self other : EllipticCurvePoint)
    (params : EllipticCurveParams) : Option EllipticCurvePoint :=
  if self.infinity then some other
  else if other.infinity then some self
  else if self.x = other.x ∧ self.y ≠ other.y then some infinityPoint
  else
    (addSlope self other params).bind fun lam =>
      if lam * lam < self.x + other.x then none
      else
        let p := params.p
        let x3 := (lam * lam - self.x - other.x) % p
        if self.x + p < x3 then none
        else
          let dx := (self.x + p - x3) % p
          if lam * dx + p < self.y then none
          else some (EllipticCurvePoint.new x3 ((lam * dx + p - self.y) % p))

/-- The byte count `(n.bits() >> 3)` drawn per attempt of
`random_scalar`. -/
def scalarNumBytes (n : Nat) : Nat := bits n >>> 3

/-- `random_scalar`: repeatedly draw `scalarNumBytes n` bytes from the
generator, read them little-endian, and accept the first value `< n`.
`fuel` bounds the number of attempts (the source loops forever). -/
def randomScalar (n : Nat) : Nat → ChaChaRng → Option (Nat × ChaChaRng)
  | 0, _ => none
  | fuel + 1, rng =>
    let r := rng.fillBytes (scalarNumBytes n)
    let k := leNat r.1
    if k < n then some (k, r.2) else randomScalar n fuel r.2

/-- `random_scalar_key`: retry `random_scalar` until nonzero.  Each
retry constructs a fresh OS-seeded generator in the source; `rngs i` is
the generator of the `i`-th attempt. -/
def randomScalarKey (n : Nat) (rngs : Nat → ChaChaRng) (innerFuel : Nat) :
    Nat → Nat → Option Nat
  | 0, _ => none
  | fuel + 1, i =>
    match randomScalar n innerFuel (rngs i) with
    | none => none
    | some (k, _) => if k ≠ 0 then some k else randomScalarKey n rngs innerFuel fuel (i + 1)

/-! ## Schnorr protocol (src/crypto/schnorr.rs)

The source is generic over `Curve: CurveArithmetic`; the embedding is
generic over the point type with the curve-crate operations passed as
functions (`padd` point addition, `psmul` scalar multiplication, `gen`
the generator, `encode` the SEC1 compressed encoding used by
`to_encoded_point(true)`).  Scalars are `Nat` values reduced `% n`;
`scalarBytes` is `size_of::<ScalarPrimitive<Curve>>()`. -/

namespace Shnorr

/-- `challenge`: SHA-512 of `encode(R) ‖ payload`; the first
`scalarBytes` bytes are read big-endian by `ScalarPrimitive::from_slice`
and `.unwrap()`-ed, which panics (`none`) when the value is `≥ n`. -/
def challenge {Point : Type} (n scalarBytes : Nat) (encode : Point → List Nat)
    (R : Point) (payload : List Nat) : Option Nat :=
  let h := sha512 (encode R ++ payload)
  let v := beNat (h.take scalarBytes)
  if v < n then some v else none

/-- `Shnorr::proof` with the commitment nonce `k` (sampled from the
thread RNG in the source) made explicit: commitment `R = k·g`, response
`s = k + x·c mod n`. -/
def proof {Point : Type} (n scalarBytes : Nat) (encode : Point → List Nat)
    (psmul : Point → Nat → Point) (g : Point)
    (payload : List Nat) (x k : Nat) : Option (Nat × Point) :=
  (challenge n scalarBytes encode (psmul g k) payload).map
    (fun c => ((k + x * c % n) % n, psmul g k))

/-- `Shnorr::verify`: recompute the challenge from `(R, payload)` and
compare `s·g` with `R + c·P`. -/
def verify {Point : Type} [DecidableEq Point] (n scalarBytes : Nat)
    (encode : Point → List Nat) (padd : Point → Point → Point)
    (psmul : Point → Nat → Point) (g : Point)
    (payload : List Nat) (publicKey : Point) (s : Nat) (R : Point) : Option Bool :=
  (challenge n scalarBytes encode R payload).map
    (fun c => decide (psmul g s = padd R (psmul publicKey c)))

end Shnorr

/-! ## NIST P-256 instance -/

def p256n : Nat := 0xffffffff00000000ffffffffffffffffbce6faada7179e84f3b9cac2fc632551

def p256gx : Nat := 0x6b17d1f2e12c4247f8bce6e563a440f277037d812deb33a0f4a13945d898c296

def p256gy : Nat := 0x4fe342e2fe1a7f9b8ee7eb4a7c0f9e162bce33576b315ececbb6406837bf51f5

/-- SEC1 compressed encoding (`to_encoded_point(true)`) of a P-256
affine point given by its coordinates. -/
def encodeP256 (P : Nat × Nat) : List Nat :=
  (if P.2 % 2 = 0 then 2 else 3) :: beBytes 32 P.1

/-! ## Token envelope (src/crypto/token.rs)

The AEAD cipher and the ECDSA signature parser are external crate
dependencies; they enter the embedding as the function parameters
`aeadEnc`/`aeadDec` (`none` = authentication error) and the signature
byte-length check.  A `Token` always holds `Some` signature (both
constructors store one), so the `unwrap` on it never panics and the
token is modelled as its `(payload, signature)` byte strings. -/

def b64Alphabet : List Char :=
  "ABCDEFGHIJKLMNOPQRSTUVWXYZabcdefghijklmnopqrstuvwxyz0123456789+/".toList

def b64UrlAlphabet : List Char :=
  "ABCDEFGHIJKLMNOPQRSTUVWXYZabcdefghijklmnopqrstuvwxyz0123456789-_".toList

/-- Encode one group of at most three bytes as base64 characters. -/
def b64EncodeGroup (alphabet : List Char) (pad : Bool) (g : List Nat) : List Char :=
  match g with
  | [a, b, c] =>
    [alphabet.getD (a / 4) '?', alphabet.getD (a % 4 * 16 + b / 16) '?',
     alphabet.getD (b % 16 * 4 + c / 64) '?', alphabet.getD (c % 64) '?']
  | [a, b] =>
    [alphabet.getD (a / 4) '?', alphabet.getD (a % 4 * 16 + b / 16) '?',
     alphabet.getD (b % 16 * 4) '?'] ++ (if pad then ['='] else [])
  | [a] =>
    [alphabet.getD (a / 4) '?', alphabet.getD (a % 4 * 16) '?'] ++
      (if pad then ['=', '='] else [])
  | _ => []

/-- Base64 encoding over a given alphabet, with or without `=` padding. -/
def base64Encode (alphabet : List Char) (pad : Bool) (bytes : List Nat) : List Char :=
  ((chunks 3 bytes).map (b64EncodeGroup alphabet pad)).flatten

/-- Value of a character in the standard base64 alphabet. -/
def b64Val (c : Char) : Option Nat :=
  (b64Alphabet.findIdx? (fun d => d = c))

/-- Strict standard-alphabet base64 decoding as `BASE64_STANDARD.decode`:
canonical `=` padding required, non-zero trailing bits rejected. -/
def b64DecodeGo : Nat → List Char → Option (List Nat)
  | _, [] => some []
  | 0, _ => none
  | fuel + 1, c1 :: c2 :: c3 :: c4 :: rest =>
    match b64Val c1, b64Val c2 with
    | some v1, some v2 =>
      if c3 = '=' then
        if c4 = '=' ∧ rest = [] then
          if v2 % 16 = 0 then some [v1 * 4 + v2 / 16] else none
        else none
      else
        match b64Val c3 with
        | some v3 =>
          if c4 = '=' then
            if rest = [] then
              if v3 % 4 = 0 then some [v1 * 4 + v2 / 16, v2 % 16 * 16 + v3 / 4]
              else none
            else none
          else
            match b64Val c4 with
            | some v4 =>
              (b64DecodeGo fuel rest).map
                (fun tl => (v1 * 4 + v2 / 16) :: (v2 % 16 * 16 + v3 / 4) ::
                  (v3 % 4 * 64 + v4) :: tl)
            | none => none
        | none => none
    | _, _ => none
  | _, _ => none

/-- `BASE64_STANDARD.decode` on a character string. -/
def base64Decode (s : List Char) : Option (List Nat) :=
  if s.length % 4 = 0 then b64DecodeGo s.length s else none

namespace Token

/-- `Token::encrypt`: AEAD-encrypt `u32_le(len(payload)) ‖ payload ‖
signature` under a fresh nonce, prepend the nonce, and base64-encode
with the `BASE64_STANDARD` (padded, `+/`) engine. -/
def encrypt (aeadEnc : List Nat → List Nat → Option (List Nat))
    (nonce payload signatureBytes : List Nat) : Option (List Char) :=
  let bytes := leBytes 4 payload.length ++ payload ++ signatureBytes
  (aeadEnc nonce bytes).map (fun ct => base64Encode b64Alphabet true (nonce ++ ct))

/-- What §6 of the specification states the text output to be: URL-safe,
unpadded base64 of the same byte layout.  Modelled from the spec for
comparison with `Token.encrypt`. -/
def encryptSpec (aeadEnc : List Nat → List Nat → Option (List Nat))
    (nonce payload signatureBytes : List Nat) : Option (List Char) :=
  let bytes := leBytes 4 payload.length ++ payload ++ signatureBytes
  (aeadEnc nonce bytes).map (fun ct => base64Encode b64UrlAlphabet false (nonce ++ ct))

/-- `Token::decrypt`.  Result: `none` models a panic (an out-of-range
slice index), `some (.error e)` a returned `Err(e)` with the source's
literal message, `some (.ok (payload, signature))` success.  `sigOk`
models `Signature::from_slice` succeeding on the signature bytes. -/
def decrypt (nonceSize : Nat) (sigOk : List Nat → Bool)
    (aeadDec : List Nat → List Nat → Option (List Nat))
    (token : List Char) : Option (Except String (List Nat × List Nat)) :=
  match base64Decode token with
  | none => some (.error "Invalid token")
  | some bytes =>
    if bytes.length < nonceSize then none
    else
      let nonce := bytes.take nonceSize
      let rest := bytes.drop nonceSize
      match aeadDec nonce rest with
      | none => some (.error "Decryption failed")
      | some pt =>
        if pt.length < 4 then none
        else
          let len := leNat (pt.take 4)
          if pt.length < 4 + len then none
          else
            let payload := (pt.drop 4).take len
            let signatureBytes := pt.drop (4 + len)
            if sigOk signatureBytes then some (.ok (payload, signatureBytes))
            else some (.error "Invalid signature")

end Token

/-! ## Auxiliary definitions used by the theorems -/

/-- What §4.3 of the specification states the challenge to be: the full
hash output, interpreted as a big-endian integer, reduced mod `n`.
Modelled from the spec for comparison with `Shnorr.challenge`. -/
def challengeSpec {Point : Type} (n : Nat) (encode : Point → List Nat)
    (R : Point) (payload : List Nat) : Nat :=
  beNat (sha512 (encode R ++ payload)) % n

/-- A concrete generator state (uniform zero seed, block exhausted) used
to evaluate the generator-consuming functions. -/
def rngState0 : ChaChaRng :=
  { key := List.replicate 32 0, nonce := List.replicate 12 0, counter := 0,
    block := List.replicate 64 0, offset := 64 }

/-- A point satisfies the Weierstrass equation of the parameter set. -/
def onCurve (P : EllipticCurvePoint) (params : EllipticCurveParams) : Prop :=
  P.y * P.y % params.p = (P.x * P.x * P.x + params.a * P.x + params.b) % params.p

instance (P : EllipticCurvePoint) (params : EllipticCurveParams) :
    Decidable (onCurve P params) := by
  unfold onCurve; infer_instance

/-- A concrete instance of the pluggable AEAD cipher (the identity
cipher, a legal `AeadInPlace` behaviour) used to evaluate the token
envelope at specific inputs. -/
def idAead : List Nat → List Nat → Option (List Nat) := fun _ pt => some pt

/-- A 12-byte nonce of zeros (the AES-GCM nonce size used in the
source's tests). -/
def zeroNonce : List Nat := List.replicate 12 0

/-- ASCII bytes of the payload `"hello"`. -/
def helloBytes : List Nat := [104, 101, 108, 108, 111]

/-- ASCII bytes of the payload `"295169925"`: the first 32 bytes of
`SHA-512(encode((p256gx, p256gy)) ‖ "295169925")` exceed the P-256 group
order, so `ScalarPrimitive::from_slice(..).unwrap()` panics on it. -/
def c2Payload : List Nat := [50, 57, 53, 49, 54, 57, 57, 50, 53]

/-- A small custom curve `y² = x³ + x + 1 mod 7` used to evaluate the
point-addition theorems ((0,1) and (2,2) lie on it). -/
def params7 : EllipticCurveParams :=
  { p := 7, a := 1, b := 1, g := EllipticCurvePoint.new 0 1, n := 7 }

/-- A small custom curve `y² = x³ + x + 5 mod 7` carrying the 2-torsion
point (3,0). -/
def params75 : EllipticCurveParams :=
  { p := 7, a := 1, b := 5, g := EllipticCurvePoint.new 3 0, n := 2 }

/-! ## C3: the Fiat-Shamir challenge -/

/-- C3, counterexample: at the commitment `(p256gx, p256gy)` and payload
`"hello"`, the challenge computed by the code is not the full SHA-512
output reduced mod `n`: the code reads only the first 32 bytes and the
two values differ. -/
theorem c3_counterexample :
    Shnorr.challenge p256n 32 encodeP256 (p256gx, p256gy) helloBytes ≠
      some (challengeSpec p256n encodeP256 (p256gx, p256gy) helloBytes) := by
  decide

/-- C3, amended: the challenge is the big-endian value of the first 32
bytes (the `ScalarPrimitive` size) of `SHA-512(encode(R) ‖ payload)`,
reduced mod `n` — the reduction being the identity because the code only
succeeds when the truncated value is already below `n` (it panics
otherwise instead of reducing). -/
theorem c3_challenge_truncated {Point : Type} (n sB : Nat)
    (encode : Point → List Nat) (R : Point) (payload : List Nat)
    (h : beNat ((sha512 (encode R ++ payload)).take sB) < n) :
    Shnorr.challenge n sB encode R payload =
      some (beNat ((sha512 (encode R ++ payload)).take sB) % n) := by
  unfold Shnorr.challenge
  rw [if_pos h, Nat.mod_eq_of_lt h]

/-- C3, witness: the amended statement evaluated at the P-256 generator
and payload `"hello"`. -/
theorem c3_challenge_truncated_witness :
    beNat ((sha512 (encodeP256 (p256gx, p256gy) ++ helloBytes)).take 32) < p256n ∧
    Shnorr.challenge p256n 32 encodeP256 (p256gx, p256gy) helloBytes =
      some (beNat ((sha512 (encodeP256 (p256gx, p256gy) ++ helloBytes)).take 32) % p256n) :=
  ⟨by decide, c3_challenge_truncated p256n 32 encodeP256 (p256gx, p256gy) helloBytes (by decide)⟩

/-! ## C2: verification always returns a boolean -/

/-- C2: the code contradicts the claim.  At commitment `(p256gx, p256gy)`
and payload `"295169925"` the truncated SHA-512 value is `≥ n`, so the
`unwrap` inside `challenge` panics and `verify` does not return a
boolean — for every public key, proof scalar and curve arithmetic. -/
theorem c2_verify_panics :
    ∀ (padd : Nat × Nat → Nat × Nat → Nat × Nat)
      (psmul : Nat × Nat → Nat → Nat × Nat) (g publicKey : Nat × Nat) (s : Nat),
      Shnorr.verify p256n 32 encodeP256 padd psmul g c2Payload publicKey s
        (p256gx, p256gy) = none := by
  have h : Shnorr.challenge p256n 32 encodeP256 (p256gx, p256gy) c2Payload = none := by
    decide
  intro padd psmul g publicKey s
  unfold Shnorr.verify
  rw [h]
  rfl

/-! ## C7: CSPRNG construction on entropy failure -/

/-- C7: the code contradicts the claim.  When either OS entropy read
fails during `ChaChaRng::new`, the `.expect(..)` panics (modelled
`none`); no error value is returned (the return type `Self` admits
none). -/
theorem c7_new_panics_on_entropy_failure :
    ChaChaRng.new none (some (List.replicate 12 0)) = none ∧
    ChaChaRng.new (some (List.replicate 32 0)) none = none :=
  ⟨rfl, rfl⟩

/-! ## C8: token decryption fails closed -/

/-- C8: the code contradicts the claim.  The token `"AA=="` is valid
base64 of the single byte `0x00`; with the 12-byte AES-GCM nonce size
the slice `bytes[..12]` is out of range, so `Token::decrypt` panics
(`none`) instead of returning a `MalformedToken`-style error — for every
key (AEAD instance) and signature parser. -/
theorem c8_decrypt_panics_on_truncated_token :
    ∀ (sigOk : List Nat → Bool) (aeadDec : List Nat → List Nat → Option (List Nat)),
      Token.decrypt 12 sigOk aeadDec ['A', 'A', '=', '='] = none := by
  have h : base64Decode ['A', 'A', '=', '='] = some [0] := by decide
  intro sigOk aeadDec
  unfold Token.decrypt
  rw [h]
  rfl

/-! ## C9: token wire encoding -/

/-- C9, counterexample: with the identity AEAD, a zero nonce and an
empty payload and signature, the text produced by `Token::encrypt`
differs from the URL-safe unpadded base64 the specification's §6
describes (`Token.encryptSpec`); the code uses the standard padded
alphabet. -/
theorem c9_counterexample :
    Token.encrypt idAead zeroNonce [] [] ≠ Token.encryptSpec idAead zeroNonce [] [] := by
  decide

/-- C9, amended: whenever the AEAD succeeds, the encrypted token's text
output is STANDARD (padded, `+/`-alphabet) base64 of the byte layout
`nonce ‖ AEAD_encrypt(key, nonce, u32_le(len(payload)) ‖ payload ‖
signature)`. -/
theorem c9_encrypt_standard_base64
    (aeadEnc : List Nat → List Nat → Option (List Nat))
    (nonce payload signatureBytes ct : List Nat)
    (h : aeadEnc nonce (leBytes 4 payload.length ++ payload ++ signatureBytes) = some ct) :
    Token.encrypt aeadEnc nonce payload signatureBytes =
      some (base64Encode b64Alphabet true (nonce ++ ct)) := by
  simp only [Token.encrypt, h, Option.map_some']

/-- C9, witness: the amended statement evaluated with the identity AEAD,
the zero nonce and a two-byte payload. -/
theorem c9_encrypt_standard_base64_witness :
    idAead zeroNonce (leBytes 4 ([1, 2] : List Nat).length ++ [1, 2] ++ [3]) =
      some (leBytes 4 2 ++ [1, 2] ++ [3]) ∧
    Token.encrypt idAead zeroNonce [1, 2] [3] =
      some (base64Encode b64Alphabet true (zeroNonce ++ (leBytes 4 2 ++ [1, 2] ++ [3]))) :=
  ⟨rfl, c9_encrypt_standard_base64 idAead zeroNonce [1, 2] [3] _ rfl⟩

/-! ## C1: Schnorr completeness -/

/-- C1: for every private key `x` in `[1, n-1]`, nonce `k` and payload,
whenever `Shnorr::proof` produces `(s, R)` (the challenge derivation
succeeds), verifying it against the public key `x·g` and the same
payload returns `true`.  The two hypotheses `hdist` and `hmul` are the
curve-crate contract the generic source code relies on: the points
reachable from `g` form a module over the scalars mod `n`. -/
theorem schnorr_completeness {Point : Type} [DecidableEq Point]
    (n sB : Nat) (encode : Point → List Nat)
    (padd : Point → Point → Point) (psmul : Point → Nat → Point) (g : Point)
    (hdist : ∀ a b : Nat, psmul g ((a + b) % n) = padd (psmul g a) (psmul g b))
    (hmul : ∀ x c : Nat, psmul (psmul g x) c = psmul g (x * c % n))
    (x k : Nat) (hx1 : 1 ≤ x) (hxn : x < n) (payload : List Nat)
    (s : Nat) (R : Point)
    (hpf : Shnorr.proof n sB encode psmul g payload x k = some (s, R)) :
    Shnorr.verify n sB encode padd psmul g payload (psmul g x) s R = some true := by
  unfold Shnorr.proof at hpf
  cases hch : Shnorr.challenge n sB encode (psmul g k) payload with
  | none => rw [hch] at hpf; exact absurd hpf (by simp)
  | some c =>
    rw [hch] at hpf
    simp only [Option.map_some', Option.some.injEq, Prod.mk.injEq] at hpf
    obtain ⟨hs, hR⟩ := hpf
    subst hR
    unfold Shnorr.verify
    rw [hch, Option.map_some']
    congr 1
    rw [decide_eq_true_eq, ← hs, hmul x c, ← hdist k (x * c % n)]

/-- C1, witness: the completeness theorem evaluated on the concrete
module `Point = Nat` with `n = 2^256`, `g = 1`, addition and scalar
multiplication mod `2^256`, private key `x = 3`, nonce `k = 5`, empty
payload and empty point encoding. -/
theorem schnorr_completeness_witness :
    Shnorr.proof (2 ^ 256) 32 (fun _ => ([] : List Nat))
        (fun p c => p * c % 2 ^ 256) 1 [] 3 5 =
      some (50001134397553438631010463345802615724469675871409170505837537993125561548143, 5) ∧
    Shnorr.verify (2 ^ 256) 32 (fun _ => ([] : List Nat))
        (fun a b => (a + b) % 2 ^ 256) (fun p c => p * c % 2 ^ 256) 1 [] 3
        50001134397553438631010463345802615724469675871409170505837537993125561548143 5 =
      some true := by
  constructor
  · decide
  · have h := @schnorr_completeness Nat _ (2 ^ 256) 32 (fun _ => ([] : List Nat))
      (fun a b => (a + b) % 2 ^ 256) (fun p c => p * c % 2 ^ 256) 1
      (by intro a b; simp [Nat.mod_mod, ← Nat.add_mod])
      (by intro x c; simp [Nat.mod_mod, Nat.mod_mul_mod])
      3 5 (by decide) (by decide) []
      50001134397553438631010463345802615724469675871409170505837537993125561548143 5
      (by decide)
    exact h

/-! ## C5: rejection sampling of scalars -/

/-- Any value accepted by the `random_scalar` rejection loop is `< n`. -/
theorem randomScalar_lt (n : Nat) :
    ∀ fuel s k s', randomScalar n fuel s = some (k, s') → k < n := by
  intro fuel
  induction fuel with
  | zero => intro s k s' h; simp [randomScalar] at h
  | succ f ih =>
    intro s k s' h
    unfold randomScalar at h
    by_cases hk : leNat (s.fillBytes (scalarNumBytes n)).1 < n
    · rw [if_pos hk] at h
      cases h
      exact hk
    · rw [if_neg hk] at h
      exact ih _ _ _ h

/-- C5, counterexample: the claim says each attempt draws
`ceil(bits(n)/8)` bytes.  For `n = 300` (9 bits) the code draws
`bits(n) >> 3 = 1` byte, not `ceil(9/8) = 2`: a concrete run consumes
exactly one keystream byte (the final offset is 1) and returns it. -/
theorem c5_counterexample :
    scalarNumBytes 300 = 1 ∧ (bits 300 + 7) / 8 = 2 ∧
    (randomScalar 300 1 rngState0).map (fun r => (r.1, r.2.offset)) = some (118, 1) := by
  decide

/-- C5, amended: each attempt draws `bits(n) >> 3 = floor(bits(n)/8)`
bytes (not `ceil`), interprets them as a little-endian big integer and
rejects values `≥ n`; consequently every value returned by
`random_scalar` lies in `[0, n-1]` and every value returned by
`random_scalar_key` lies in `[1, n-1]`. -/
theorem c5_scalar_ranges (n : Nat) :
    (∀ fuel s k, (randomScalar n fuel s).map Prod.fst = some k → k < n) ∧
    (∀ rngs innerFuel fuel i k, randomScalarKey n rngs innerFuel fuel i = some k →
      1 ≤ k ∧ k < n) := by
  constructor
  · intro fuel s k h
    cases hr : randomScalar n fuel s with
    | none => rw [hr] at h; exact absurd h (by simp)
    | some r =>
      rw [hr, Option.map_some'] at h
      cases h
      exact randomScalar_lt n fuel s r.1 r.2 (by rw [hr])
  · intro rngs innerFuel fuel
    induction fuel with
    | zero => intro i k h; simp [randomScalarKey] at h
    | succ f ih =>
      intro i k h
      unfold randomScalarKey at h
      cases hr : randomScalar n innerFuel (rngs i) with
      | none => rw [hr] at h; cases h
      | some r =>
        obtain ⟨k1, s1⟩ := r
        rw [hr] at h
        dsimp only at h
        by_cases hz : k1 ≠ 0
        · rw [if_pos hz] at h
          cases h
          exact ⟨Nat.one_le_iff_ne_zero.mpr hz,
            randomScalar_lt n innerFuel (rngs i) k s1 (by rw [hr])⟩
        · rw [if_neg hz] at h
          exact ih _ _ h

/-- C5, witness: the amended statement evaluated at `n = 300` on the
concrete zero-seeded generator state: the scalar 118 is returned and
lies in the claimed ranges. -/
theorem c5_scalar_ranges_witness :
    ((randomScalar 300 1 rngState0).map Prod.fst = some 118 ∧ 118 < 300) ∧
    (randomScalarKey 300 (fun _ => rngState0) 1 1 0 = some 118 ∧ 1 ≤ 118 ∧ 118 < 300) :=
  ⟨⟨by decide, (c5_scalar_ranges 300).1 1 rngState0 118 (by decide)⟩,
   ⟨by decide, (c5_scalar_ranges 300).2 (fun _ => rngState0) 1 1 0 118 (by decide)⟩⟩

/-! ## Helper lemmas for point addition -/

theorem mod_inv_isSome (a p : Nat) (h : Nat.gcd a p = 1) : (mod_inv a p).isSome := by
  simp [mod_inv, h]

theorem mod_inv_lt (a p : Nat) (hp : 0 < p) (inv : Nat) (h : mod_inv a p = some inv) :
    inv < p := by
  unfold mod_inv at h
  by_cases hg : Nat.gcd a p = 1
  · rw [if_pos hg] at h
    cases h
    have hpz : (p : ℤ) ≠ 0 := by exact_mod_cast Nat.pos_iff_ne_zero.mp hp
    have h1 : (egcdGo (a + p + 1) a p 1 0).2 % (p : ℤ) < p :=
      Int.emod_lt_of_pos _ (by exact_mod_cast hp)
    have h2 : 0 ≤ (egcdGo (a + p + 1) a p 1 0).2 % (p : ℤ) := Int.emod_nonneg _ hpz
    omega
  · rw [if_neg hg] at h
    cases h

/-- Casting the source's add-`p`-then-subtract-then-reduce dance on
naturals to the mathematical `Int` residue. -/
theorem natSub_cast (a b p : Nat) (hb : b ≤ a + p) :
    (((a + p - b) % p : Nat) : ℤ) = ((a : ℤ) - b) % p := by
  push_cast [hb]
  have h : (a : ℤ) + p - b = (a : ℤ) - b + p * 1 := by ring
  rw [h, Int.add_mul_emod_self_left]

theorem eq_toNat_of_cast_eq (v : Nat) (w : ℤ) (h : (v : ℤ) = w) : v = w.toNat := by
  rw [← h, Int.toNat_natCast]

theorem gcd_one_of_prime (p a : Nat) (hp : p.Prime) (h : a % p ≠ 0) :
    Nat.gcd a p = 1 := by
  rw [Nat.gcd_comm]
  refine (Nat.Prime.coprime_iff_not_dvd hp).mpr (fun hd => h ?_)
  obtain ⟨t, ht⟩ := hd
  rw [ht, Nat.mul_mod_right]

/-- The formula branch of `add`: with a computed slope, no underflow and
a reduced `y`-coordinate, the source returns the point its two closing
formulas produce. -/
theorem add_some_of_slope (params : EllipticCurveParams) (P Q : EllipticCurvePoint)
    (hp : 0 < params.p) (hPi : P.infinity = false) (hQi : Q.infinity = false)
    (hneg : ¬(P.x = Q.x ∧ P.y ≠ Q.y)) (lam : Nat)
    (hlam : addSlope P Q params = some lam) (hund : P.x + Q.x ≤ lam * lam)
    (hy1 : P.y < params.p) :
    P.add Q params = some (EllipticCurvePoint.new
      ((lam * lam - P.x - Q.x) % params.p)
      ((lam * ((P.x + params.p - (lam * lam - P.x - Q.x) % params.p) % params.p)
        + params.p - P.y) % params.p)) := by
  unfold EllipticCurvePoint.add
  rw [hPi, hQi]
  simp only [Bool.false_eq_true, if_false]
  rw [if_neg hneg, hlam, Option.some_bind]
  rw [if_neg (Nat.not_lt.mpr hund)]
  have hx3 : (lam * lam - P.x - Q.x) % params.p < params.p :=
    Nat.mod_lt _ hp
  rw [if_neg (by omega)]
  rw [if_neg (by omega)]

/-! ## C4: the point-addition formulas -/

/-- C4, counterexample: `(1,3)` and `(2,3)` under `p = 7` are two
distinct points with the same `y`-coordinate.  The claimed formulas
yield `λ = 0`, `x3 = 4`, `y3 = 4`, but the source's unchecked `BigUint`
subtraction `λ² − x1 − x2` underflows and panics instead of returning a
point. -/
theorem c4_counterexample :
    (EllipticCurvePoint.new 1 3).add (EllipticCurvePoint.new 2 3) params7 = none := by
  decide

/-- C4, amended: the infinity and negation branches are exactly as
claimed; in the remaining branch, *whenever the slope's modular inverse
exists and the unchecked subtraction `λ² − x1 − x2` does not underflow*
(the source panics otherwise), `add` returns `(x3, y3)` with
`x3 = λ² − x1 − x2 mod p` and `y3 = λ(x1 − x3) − y1 mod p` (canonical
residues, conjunct 4); the slope is the tangent formula
`(3x² + a)·(2y)⁻¹ mod p` when the x-coordinates coincide (conjunct 5)
and the secant formula `(y2 − y1)·(x2 − x1)⁻¹ mod p` otherwise
(conjunct 6), division meaning multiplication by the modular inverse.
Coordinates are assumed reduced below `p`. -/
theorem c4_add_formulas (params : EllipticCurveParams) (P Q : EllipticCurvePoint)
    (hp : 0 < params.p)
    (hx1 : P.x < params.p) (hy1 : P.y < params.p)
    (hx2 : Q.x < params.p) (hy2 : Q.y < params.p) :
    (P.infinity = true → P.add Q params = some Q) ∧
    (P.infinity = false → Q.infinity = true → P.add Q params = some P) ∧
    (P.infinity = false → Q.infinity = false → P.x = Q.x → P.y ≠ Q.y →
      P.add Q params = some infinityPoint) ∧
    (P.infinity = false → Q.infinity = false → ¬(P.x = Q.x ∧ P.y ≠ Q.y) →
      ∀ lam, addSlope P Q params = some lam → P.x + Q.x ≤ lam * lam →
        P.add Q params = some (EllipticCurvePoint.new
          ((((lam : ℤ) * lam - P.x - Q.x) % (params.p : ℤ)).toNat)
          ((((lam : ℤ) * ((P.x : ℤ) -
              ((lam : ℤ) * lam - P.x - Q.x) % (params.p : ℤ)) - P.y) %
            (params.p : ℤ)).toNat))) ∧
    (P.x = Q.x → addSlope P Q params = (mod_inv (2 * P.y) params.p).map
      (fun inv => (3 * P.x * P.x + params.a) * inv % params.p)) ∧
    (P.x ≠ Q.x → ∀ inv,
      mod_inv ((Q.x + params.p - P.x) % params.p) params.p = some inv →
      addSlope P Q params =
        some (((((Q.y : ℤ) - P.y) * inv) % (params.p : ℤ)).toNat)) := by
  refine ⟨?_, ?_, ?_, ?_, ?_, ?_⟩
  · intro h
    unfold EllipticCurvePoint.add
    rw [h]
    simp
  · intro hPi hQi
    unfold EllipticCurvePoint.add
    rw [hPi, hQi]
    simp
  · intro hPi hQi hx hy
    unfold EllipticCurvePoint.add
    rw [hPi, hQi]
    simp only [Bool.false_eq_true, if_false]
    rw [if_pos ⟨hx, hy⟩]
  · intro hPi hQi hneg lam hlam hund
    rw [add_some_of_slope params P Q hp hPi hQi hneg lam hlam hund hy1]
    have h1 : P.x ≤ lam * lam := by omega
    have h2 : Q.x ≤ lam * lam - P.x := by omega
    have hx3cast : (((lam * lam - P.x - Q.x) % params.p : Nat) : ℤ) =
        ((lam : ℤ) * lam - P.x - Q.x) % (params.p : ℤ) := by
      push_cast [h1, h2]
      ring_nf
    have hx3lt : (lam * lam - P.x - Q.x) % params.p < params.p := Nat.mod_lt _ hp
    refine congrArg some ?_
    unfold EllipticCurvePoint.new
    simp only [EllipticCurvePoint.mk.injEq]
    refine ⟨?_, ?_, trivial⟩
    · exact eq_toNat_of_cast_eq _ _ hx3cast
    · apply eq_toNat_of_cast_eq
      rw [natSub_cast _ _ _ (by omega : P.y ≤ lam * ((P.x + params.p -
        (lam * lam - P.x - Q.x) % params.p) % params.p) + params.p)]
      rw [Nat.cast_mul]
      rw [natSub_cast _ _ _ (by omega : (lam * lam - P.x - Q.x) % params.p ≤
        P.x + params.p)]
      rw [← hx3cast]
      have hm : Int.ModEq (params.p : ℤ)
          (((P.x : ℤ) - ((lam * lam - P.x - Q.x) % params.p : Nat)) % (params.p : ℤ))
          ((P.x : ℤ) - ((lam * lam - P.x - Q.x) % params.p : Nat)) :=
        Int.emod_emod_of_dvd _ dvd_rfl
      exact (hm.mul_left (lam : ℤ)).sub_right (P.y : ℤ)
  · intro hx
    unfold addSlope
    rw [if_pos hx]
  · intro hx inv hinv
    unfold addSlope
    rw [if_neg hx, if_neg (by omega : ¬(Q.x + params.p < P.x)),
      if_neg (by omega : ¬(Q.y + params.p < P.y)), hinv, Option.map_some']
    refine congrArg _ ?_
    apply eq_toNat_of_cast_eq
    rw [Int.natCast_mod, Int.natCast_mul,
      natSub_cast _ _ _ (by omega : P.y ≤ Q.y + params.p)]
    have hm : Int.ModEq (params.p : ℤ)
        (((Q.y : ℤ) - P.y) % (params.p : ℤ)) ((Q.y : ℤ) - P.y) :=
      Int.emod_emod_of_dvd _ dvd_rfl
    exact hm.mul_right (inv : ℤ)

/-- C4, witness: the amended statement evaluated on the curve
`y² = x³ + x + 1 mod 7` at the on-curve points `(0,1)` and `(2,2)`,
where the secant slope is 4 and the sum is `(0,6)`. -/
theorem c4_add_formulas_witness :
    (0 < params7.p ∧ addSlope (EllipticCurvePoint.new 0 1) (EllipticCurvePoint.new 2 2) params7 = some 4) ∧
    (EllipticCurvePoint.new 0 1).add (EllipticCurvePoint.new 2 2) params7 =
      some (EllipticCurvePoint.new 0 6) := by
  refine ⟨by decide, ?_⟩
  have h := (c4_add_formulas params7 (EllipticCurvePoint.new 0 1)
    (EllipticCurvePoint.new 2 2) (by decide) (by decide) (by decide) (by decide)
    (by decide)).2.2.2.1 rfl rfl (by decide) 4 (by decide) (by decide)
  rw [h]
  decide

/-! ## C10: totality of point addition -/

/-- C10, counterexample: `(3,0)` lies on `y² = x³ + x + 5 mod 7` and has
`y = 0`; doubling it needs the inverse of `2·y = 0` which does not
exist, so the claim that the inverses taken inside `add` always exist
(including the `y = 0` doubling case) fails: the code panics. -/
theorem c10_counterexample :
    onCurve (EllipticCurvePoint.new 3 0) params75 ∧
    (EllipticCurvePoint.new 3 0).add (EllipticCurvePoint.new 3 0) params75 = none := by
  constructor
  · decide
  · decide

/-- C10, amended: for valid (on-curve, reduced-coordinate, non-infinity)
points under a prime modulus, `add` returns a result without panicking
*provided* the slope denominator is nonzero mod `p` in the doubling case
and the computed slope satisfies `λ² ≥ x1 + x2`; outside these
conditions (doubling a point with `y = 0`, or two points whose secant
slope is too small, e.g. distinct points sharing a `y`-coordinate) the
unchecked subtraction or the missing inverse makes the code panic. -/
theorem c10_add_total (params : EllipticCurveParams) (P Q : EllipticCurvePoint)
    (hp : params.p.Prime)
    (hPc : onCurve P params) (hQc : onCurve Q params)
    (hPi : P.infinity = false) (hQi : Q.infinity = false)
    (hx1 : P.x < params.p) (hy1 : P.y < params.p)
    (hx2 : Q.x < params.p) (hy2 : Q.y < params.p)
    (hden : P.x = Q.x → P.y = Q.y → 2 * P.y % params.p ≠ 0)
    (hund : Option.elim (addSlope P Q params) True (fun lam => P.x + Q.x ≤ lam * lam)) :
    (P.add Q params).isSome = true := by
  by_cases hneg : P.x = Q.x ∧ P.y ≠ Q.y
  · unfold EllipticCurvePoint.add
    rw [hPi, hQi]
    simp only [Bool.false_eq_true, if_false]
    rw [if_pos hneg]
    rfl
  · have hslope : ∃ lam, addSlope P Q params = some lam := by
      unfold addSlope
      by_cases hx : P.x = Q.x
      · have hy : P.y = Q.y := by
          rcases Decidable.em (P.y = Q.y) with h | h
          · exact h
          · exact absurd ⟨hx, h⟩ hneg
        rw [if_pos hx]
        have hg : Nat.gcd (2 * P.y) params.p = 1 :=
          gcd_one_of_prime _ _ hp (hden hx hy)
        rcases Option.isSome_iff_exists.mp (mod_inv_isSome _ _ hg) with ⟨inv, hinv⟩
        exact ⟨_, by rw [hinv, Option.map_some']⟩
      · rw [if_neg hx, if_neg (by omega : ¬(Q.x + params.p < P.x)),
          if_neg (by omega : ¬(Q.y + params.p < P.y))]
        have hdx : (Q.x + params.p - P.x) % params.p ≠ 0 := by
          intro h0
          obtain ⟨t, ht⟩ := Nat.dvd_of_mod_eq_zero h0
          have h1 : 0 < Q.x + params.p - P.x := by omega
          have h2 : Q.x + params.p - P.x < 2 * params.p := by omega
          rcases t with _ | t1
          · rw [Nat.mul_zero] at ht; omega
          · rcases t1 with _ | t2
            · rw [Nat.mul_one] at ht; exact hx (by omega)
            · have hge : params.p * 2 ≤ params.p * (t2 + 1 + 1) :=
                Nat.mul_le_mul_left _ (by omega)
              omega
        have hg : Nat.gcd ((Q.x + params.p - P.x) % params.p) params.p = 1 :=
          gcd_one_of_prime _ _ hp (by
            rwa [Nat.mod_eq_of_lt (Nat.mod_lt _ hp.pos)])
        rcases Option.isSome_iff_exists.mp (mod_inv_isSome _ _ hg) with ⟨inv, hinv⟩
        exact ⟨_, by rw [hinv, Option.map_some']⟩
    obtain ⟨lam, hlam⟩ := hslope
    rw [hlam] at hund
    rw [add_some_of_slope params P Q hp.pos hPi hQi hneg lam hlam hund hy1]
    rfl

/-- C10, witness: the amended statement evaluated at the on-curve points
`(0,1)` and `(2,2)` of `y² = x³ + x + 1 mod 7`. -/
theorem c10_add_total_witness :
    (Nat.Prime params7.p ∧
     onCurve (EllipticCurvePoint.new 0 1) params7 ∧
     onCurve (EllipticCurvePoint.new 2 2) params7) ∧
    (((EllipticCurvePoint.new 0 1).add (EllipticCurvePoint.new 2 2) params7).isSome = true) :=
  ⟨⟨by norm_num [params7], by decide, by decide⟩,
   c10_add_total params7 (EllipticCurvePoint.new 0 1) (EllipticCurvePoint.new 2 2)
     (by norm_num [params7]) (by decide) (by decide) rfl rfl (by decide) (by decide)
     (by decide) (by decide) (by decide)
     (by
       have h4 : addSlope (EllipticCurvePoint.new 0 1) (EllipticCurvePoint.new 2 2)
           params7 = some 4 := by decide
       rw [h4]
       show (EllipticCurvePoint.new 0 1).x + (EllipticCurvePoint.new 2 2).x ≤ 4 * 4
       decide)⟩

/-! ## C6: `fill_bytes` versus repeated `next_u8` -/

theorem leBytes_length (k : Nat) : ∀ n, (leBytes k n).length = k := by
  induction k with
  | zero => intro n; rfl
  | succ m ih => intro n; simp [leBytes, ih]

theorem chachaQuarterRound_length (x : List Nat) (a b c d : Nat) :
    (chachaQuarterRound x a b c d).length = x.length := by
  simp [chachaQuarterRound]

theorem chachaDoubleRound_length (s : List Nat) :
    (chachaDoubleRound s).length = s.length := by
  simp [chachaDoubleRound, chachaQuarterRound_length]

theorem chachaDoubleRounds_length : ∀ t s, (chachaDoubleRounds t s).length = s.length := by
  intro t
  induction t with
  | zero => intro s; rfl
  | succ m ih => intro s; rw [chachaDoubleRounds, ih, chachaDoubleRound_length]

theorem flatten_leBytes_length (l : List Nat) :
    ((l.map (leBytes 4)).flatten).length = 4 * l.length := by
  induction l with
  | nil => rfl
  | cons a t ih =>
    simp only [List.map_cons, List.flatten_cons, List.length_append, leBytes_length, ih,
      List.length_cons]
    ring

/-- Every keystream block has exactly 64 bytes, whatever the seed. -/
theorem chachaBlock_length (key nonce : List Nat) (c : Nat) :
    (chachaBlock key nonce c).length = 64 := by
  unfold chachaBlock
  rw [flatten_leBytes_length]
  simp [List.length_zip, chachaDoubleRounds_length]

theorem take_succ_eq_getD_cons (l : List Nat) (m : Nat) (h : 0 < l.length) :
    l.take (m + 1) = l.getD 0 0 :: (l.drop 1).take m := by
  cases l with
  | nil => simp at h
  | cons a t => rfl

theorem nextU8_no_refill (s : ChaChaRng) (h : s.offset < 64) :
    s.nextU8 = (s.block.getD s.offset 0, { s with offset := s.offset + 1 }) := by
  unfold ChaChaRng.nextU8
  rw [if_neg (by omega : ¬s.offset = 64)]

/-- Reads that stay inside the current block: `c` calls to `next_u8`
return the next `c` buffered bytes and advance the offset. -/
theorem nextN_within : ∀ (c : Nat) (s : ChaChaRng), s.block.length = 64 →
    s.offset + c ≤ 64 →
    s.nextN c = ((s.block.drop s.offset).take c, { s with offset := s.offset + c }) := by
  intro c
  induction c with
  | zero => intro s hb h; rfl
  | succ m ih =>
    intro s hb h
    have hlt : s.offset < 64 := by omega
    simp only [ChaChaRng.nextN]
    rw [nextU8_no_refill s hlt]
    dsimp only
    rw [ih { s with offset := s.offset + 1 } (by simpa) (by simp; omega)]
    dsimp only
    refine Prod.ext ?_ ?_
    · rw [List.drop_eq_getElem_cons (by omega : s.offset < s.block.length),
        List.take_succ_cons, List.getD_eq_getElem s.block 0 (by omega)]
    · show ({ s with offset := s.offset + 1 + m } : ChaChaRng) =
        { s with offset := s.offset + (m + 1) }
      rw [show s.offset + 1 + m = s.offset + (m + 1) by omega]

/-- `next_u8` iterates compose: reading `a + b` bytes is reading `a`
then `b`. -/
theorem nextN_split (a : Nat) : ∀ (b : Nat) (s : ChaChaRng),
    s.nextN (a + b) =
      ((s.nextN a).1 ++ ((s.nextN a).2.nextN b).1, ((s.nextN a).2.nextN b).2) := by
  induction a with
  | zero => intro b s; rw [Nat.zero_add]; rfl
  | succ m ih =>
    intro b s
    rw [Nat.succ_add]
    simp only [ChaChaRng.nextN]
    rw [ih]
    simp [List.cons_append]

/-- Reads that start exactly at the block boundary trigger one refill
and then read from the fresh block. -/
theorem nextN_from_boundary (s : ChaChaRng) (h64 : s.offset = 64) (c : Nat)
    (hc : 1 ≤ c) (hc64 : c ≤ 64) :
    s.nextN c = ((s.refill.block).take c, { s.refill with offset := c }) := by
  cases c with
  | zero => omega
  | succ m =>
    have hlen : s.refill.block.length = 64 := by
      simp [ChaChaRng.refill, chachaBlock_length]
    simp only [ChaChaRng.nextN]
    have hu : s.nextU8 = (s.refill.block.getD 0 0, { s.refill with offset := 1 }) := by
      unfold ChaChaRng.nextU8
      rw [if_pos h64]
      rfl
    rw [hu]
    dsimp only
    revert hlen
    generalize s.refill = t
    intro hlen
    rw [nextN_within m { t with offset := 1 } (by simpa using hlen) (by simp; omega)]
    dsimp only
    refine Prod.ext ?_ ?_
    · exact (take_succ_eq_getD_cons t.block m (by omega)).symm
    · show ({ t with offset := 1 + m } : ChaChaRng) = { t with offset := m + 1 }
      rw [Nat.add_comm 1 m]

/-- The chunked `fill_bytes` loop produces exactly the bytes and final
state of byte-at-a-time reading. -/
theorem fillBytesGo_eq_nextN : ∀ (fuel len : Nat) (s : ChaChaRng), len ≤ fuel →
    s.block.length = 64 → s.offset ≤ 64 →
    ChaChaRng.fillBytesGo fuel s len = s.nextN len := by
  intro fuel
  induction fuel with
  | zero =>
    intro len s hlen hb ho
    have h0 : len = 0 := by omega
    subst h0
    rfl
  | succ f ih =>
    intro len s hlen hb ho
    by_cases h0 : len = 0
    · subst h0; rfl
    · simp only [ChaChaRng.fillBytesGo]
      rw [if_neg h0]
      have hc1 : 1 ≤ min 64 len := by omega
      have hcle : min 64 len ≤ len := by omega
      by_cases hcase : 64 - s.offset < min 64 len
      · rw [if_pos hcase]
        have hsplit : len = (64 - s.offset) +
            ((min 64 len - (64 - s.offset)) + (len - min 64 len)) := by omega
        conv_rhs => rw [hsplit]
        rw [nextN_split, nextN_split]
        rw [nextN_within (64 - s.offset) s hb (by omega)]
        dsimp only
        rw [nextN_from_boundary { s with offset := s.offset + (64 - s.offset) }
          (by simp; omega) (min 64 len - (64 - s.offset)) (by omega) (by omega)]
        dsimp only
        have hrefill : ({ s with offset := s.offset + (64 - s.offset) } : ChaChaRng).refill
            = s.refill := rfl
        rw [hrefill]
        have hlen2 : s.refill.block.length = 64 := by
          simp [ChaChaRng.refill, chachaBlock_length]
        revert hlen2
        generalize s.refill = t
        intro hlen2
        rw [ih (len - min 64 len)
          { t with offset := min 64 len - (64 - s.offset) }
          (by omega) (by simpa using hlen2)
          (by show min 64 len - (64 - s.offset) ≤ 64; omega)]
        refine Prod.ext ?_ ?_
        · show s.block.drop s.offset ++ _ = _ ++ _
          rw [List.take_of_length_le
            (by rw [List.length_drop, hb] : (s.block.drop s.offset).length ≤ 64 - s.offset)]
        · rfl
      · rw [if_neg hcase]
        conv_rhs => rw [show len = min 64 len + (len - min 64 len) by omega]
        rw [nextN_split]
        rw [nextN_within (min 64 len) s hb (by omega)]
        dsimp only
        rw [ih (len - min 64 len) { s with offset := s.offset + min 64 len }
          (by omega) (by simpa using hb)
          (by show s.offset + min 64 len ≤ 64; omega)]

/-- C6: for every generator state (with its 64-byte block and in-range
offset) and every buffer length, `fill_bytes` writes exactly the bytes
that as many successive `next_u8` calls would return and leaves the
generator in the same final state — including requests spanning several
keystream blocks with partial blocks at both ends, the wrapping counter
incremented once per refilled block. -/
theorem c6_fillBytes_eq_nextN (s : ChaChaRng) (len : Nat)
    (hb : s.block.length = 64) (ho : s.offset ≤ 64) :
    s.fillBytes len = s.nextN len :=
  fillBytesGo_eq_nextN len len s le_rfl hb ho

/-- C6, witness: a concrete 150-byte request from the zero-seeded state,
spanning a refill at the start, two full blocks and a trailing partial
block. -/
theorem c6_fillBytes_eq_nextN_witness :
    (rngState0.block.length = 64 ∧ rngState0.offset ≤ 64) ∧
    rngState0.fillBytes 150 = rngState0.nextN 150 :=
  ⟨⟨by decide, by decide⟩, c6_fillBytes_eq_nextN rngState0 150 (by decide) (by decide)⟩

end Iam0
